import Mathlib

/-!
# Verification of the epd-assets asset compiler

Shallow embedding of `src/lib.rs` (run-length codec, RLE image assembly,
sparse glyph-index compiler, font bundle builder, bitmap thresholding) with
proofs of the specified properties.

Machine integers are modelled as `Nat`/`Int`: `u16` arithmetic wraps modulo
65536 where the source stores into a `u16`, `u8` channel addition wraps modulo
256, and Rust signed division (which truncates toward zero) is `Int.tdiv`.
-/

/-- One bit of a packed 1-bpp row, MSB-first within each byte, as read by
`Font::generate_rle`: `(row[i / 8] >> (7 - bits)) & 1` where the source's
`bits` counter equals `i % 8`. Out-of-range reads (which would panic in Rust)
default to byte 0. -/
def getBit (row : List Nat) (i : Nat) : Nat :=
  ((row.getD (i / 8) 0) >>> (7 - i % 8)) &&& 1

/-- Loop body of `Font::generate_rle`: state is `(run_color, run_length,
output)`; the run length lives in a `u16`, hence the modulus. -/
def rleStep (row : List Nat) (st : Nat × Nat × List Nat) (i : Nat) :
    Nat × Nat × List Nat :=
  let bit := getBit row i
  if bit = st.1 then (st.1, (st.2.1 + 1) % 65536, st.2.2)
  else (bit, 1, st.2.2 ++ [(st.1 <<< 15) ||| st.2.1])

/-- `Font::generate_rle`: encode the first `width` bits of `row` as 16-bit
run words appended to `output`. The initial run color is the row's first bit
(`(row[0] & 0x80) >> 7`), the initial run length is 0, and the final run is
flushed unconditionally after the loop. -/
def generate_rle (output : List Nat) (row : List Nat) (width : Nat) :
    List Nat :=
  let st := (List.range width).foldl (rleStep row)
    (((row.getD 0 0) &&& 128) >>> 7, 0, output)
  st.2.2 ++ [(st.1 <<< 15) ||| st.2.1]

/-- Run-length expansion of a word sequence: each word contributes its low 15
bits (the run length) many copies of its top bit (the run color). -/
def expandRLE (words : List Nat) : List Nat :=
  words.flatMap (fun w => List.replicate (w % 32768) (w / 32768))

/-- The first `width` bits of a row, MSB-first within each byte. -/
def rowBits (row : List Nat) (width : Nat) : List Nat :=
  (List.range width).map (getBit row)

/-- Per-row body of `Font::generate_rle_image`: append the RLE words of row
`y` (the `pitch` bytes starting at `y * pitch`), then store the new total word
count into header slot `y + 1` as a `u16`. -/
def rleImageStep (buffer : List Nat) (pitch width : Nat) (data : List Nat)
    (y : Nat) : List Nat :=
  let row := (buffer.drop (y * pitch)).take pitch
  let d := generate_rle data row width
  d.set (y + 1) (d.length % 65536)

/-- `Font::generate_rle_image`: `height + 1` header words (slot 0 is
initialised to the header size `height + 1`, as a `u16`), followed by the
concatenated per-row run words; slot `y + 1` receives the running word count
after row `y`. -/
def generate_rle_image (buffer : List Nat) (pitch width height : Nat) :
    List Nat :=
  let data := (List.replicate (height + 1) 0).set 0 ((height + 1) % 65536)
  (List.range height).foldl (rleImageStep buffer pitch width) data

/-- The run words of row `y` alone (empty output accumulator). -/
def rowWords (buffer : List Nat) (pitch width y : Nat) : List Nat :=
  generate_rle [] ((buffer.drop (y * pitch)).take pitch) width

/-- Word offset of the start of row `k` inside the encoded image (header block
plus the words of all rows before `k`), before the `u16` reduction. -/
def rleImageOffset (buffer : List Nat) (pitch width height k : Nat) : Nat :=
  height + 1 +
    ((List.range k).map (fun y => (rowWords buffer pitch width y).length)).sum

/-- Mutable state of the scan loop in `Font::generate_get_glyph_index`:
`run_start`/`run_length` describe the open run of consecutive character
codes, `idx` is the loop index `i`, and `code` collects the emitted
`(range_start, range_length, base_index)` triples. -/
structure ScanState where
  run_start : Nat
  run_length : Nat
  idx : Nat
  code : List (Nat × Nat × Nat)

/-- Loop body of `Font::generate_get_glyph_index` for the character `c` at
input position `idx`: extend the open run while `c == run_start +
run_length`, otherwise flush the run (whose first character sits at input
position `idx - run_length`) and open a new one at `c`. -/
def glyphIndexStep (st : ScanState) (c : Nat) : ScanState :=
  if c = st.run_start + st.run_length then
    { st with run_length := st.run_length + 1, idx := st.idx + 1 }
  else
    { run_start := c, run_length := 1, idx := st.idx + 1,
      code := st.code ++ [(st.run_start, st.run_length, st.idx - st.run_length)] }

/-- The `(range_start, range_length, base_index)` triples emitted by
`Font::generate_get_glyph_index` for a non-empty character list: scan
positions `1..` with `glyphIndexStep`, then flush the final run, whose first
character sits at position `chars.len() - run_length`. -/
def compile_ranges (chars : List Nat) : List (Nat × Nat × Nat) :=
  match chars with
  | [] => []
  | c0 :: rest =>
    let st := rest.foldl glyphIndexStep ⟨c0, 1, 1, []⟩
    st.code ++ [(st.run_start, st.run_length, (c0 :: rest).length - st.run_length)]

/-- Failure modes of the font builder. `panic` models a Rust panic (a failed
`assert!` or an out-of-bounds index); the source has no dedicated error
variants for these conditions. `negativeBearingError` and
`emptyAlphabetError` are modelled from the spec: the spec names these errors,
but no counterpart exists in the source, which panics instead. -/
inductive BuildError where
  | panic
  | negativeBearingError
  | emptyAlphabetError
deriving DecidableEq

/-- Outcome of `Font::generate_get_glyph_index`: on an empty character list
the source reads `chars[0]` and panics; otherwise it emits the range table
(the generated closure is a first-match scan over those ranges). -/
def generate_get_glyph_index (chars : List Nat) :
    Except BuildError (List (Nat × Nat × Nat)) :=
  match chars with
  | [] => .error .panic
  | c0 :: rest => .ok (compile_ranges (c0 :: rest))

/-- Lookup semantics of the generated closure: scan the emitted ranges in
order and return `base_index + (c - range_start)` for the first range
containing `c`, `none` if no range matches. A length-1 range is emitted as an
equality test in the source, which is the same first-match semantics. -/
def lookupGlyphIndex : List (Nat × Nat × Nat) → Nat → Option Nat
  | [], _ => none
  | (s, len, base) :: rest, c =>
    if s ≤ c ∧ c < s + len then some (base + (c - s))
    else lookupGlyphIndex rest c

/-- Position of the first occurrence of `c` in a list, if any (specification
device used to state lookup correctness). -/
def findPos (c : Nat) : List Nat → Option Nat
  | [] => none
  | a :: l => if a = c then some 0 else (findPos c l).map (· + 1)

/-- Left-biased choice on optional indices (first-match combination). -/
def optOr (a b : Option Nat) : Option Nat :=
  match a with
  | some x => some x
  | none => b

/-- Ascender of the emitted font: `(size.ascender + 63) / 64` in Rust `i64`
arithmetic (truncating division). -/
def ascender_px (ascender : Int) : Int := Int.tdiv (ascender + 63) 64

/-- Descender of the emitted font: `-(size.descender + 63) / 64` in Rust
`i64` arithmetic — the unary minus applies to `descender + 63` and the
truncating division follows. -/
def descender_px (descender : Int) : Int := Int.tdiv (-(descender + 63)) 64

/-- Data returned by the rasterizer for one glyph (the inputs
`Font::generate_glyph` consumes: bitmap buffer, pitch, width, rows, bearings
and horizontal advance in 1/64-px units). -/
structure GlyphInput where
  buffer : List Nat
  pitch : Nat
  width : Nat
  rows : Nat
  bitmap_left : Int
  bitmap_top : Int
  advance_x : Int
deriving DecidableEq

/-- The glyph record emitted by `Font::generate_glyph` on success. -/
structure GlyphData where
  image_data : List Nat
  image_width : Nat
  image_height : Nat
  image_left : Int
  image_top : Int
  advance : Int
deriving DecidableEq

/-- Successful payload of `Font::generate_glyph`: the RLE image plus metrics,
with the advance rounded up from 1/64-px units. -/
def glyphPayload (g : GlyphInput) : GlyphData :=
  { image_data := generate_rle_image g.buffer g.pitch g.width g.rows,
    image_width := g.width, image_height := g.rows,
    image_left := g.bitmap_left, image_top := g.bitmap_top,
    advance := Int.tdiv (g.advance_x + 63) 64 }

/-- `Font::generate_glyph`: `assert!(glyph.bitmap_top() >= 0)` panics on a
negative vertical bearing, otherwise the glyph record is produced. -/
def generate_glyph (g : GlyphInput) : Except BuildError GlyphData :=
  if g.bitmap_top < 0 then .error .panic else .ok (glyphPayload g)

/-- The glyph loop of `Font::generate`: one glyph per requested character, in
order; the first failure aborts the build. -/
def generate_glyphs : List Nat → (Nat → GlyphInput) → Except BuildError (List GlyphData)
  | [], _ => .ok []
  | c :: rest, f =>
    match generate_glyph (f c) with
    | .error e => .error e
    | .ok g =>
      match generate_glyphs rest f with
      | .error e => .error e
      | .ok gs => .ok (g :: gs)

/-- The subset preprocessing of `Font::generate`: `subset.sort()` — a sort
with no deduplication. -/
def font_sorted_subset (subset : List Nat) : List Nat :=
  List.insertionSort (fun a b => a ≤ b) subset

/-- The data content of the emitted font constant. -/
structure FontOutput where
  ascender : Int
  descender : Int
  glyphs : List GlyphData
  glyph_ranges : List (Nat × Nat × Nat)
deriving DecidableEq

/-- `Font::generate`, as a data transform (the rasterizer is the function
`f`, the font-wide `size_metrics` values are `asc`/`desc`): sort the subset,
generate the glyphs in sorted order, then compile the glyph-index ranges over
the same sorted list. -/
def font_generate (subset : List Nat) (f : Nat → GlyphInput) (asc desc : Int) :
    Except BuildError FontOutput :=
  match generate_glyphs (font_sorted_subset subset) f with
  | .error e => .error e
  | .ok gs =>
    match generate_get_glyph_index (font_sorted_subset subset) with
    | .error e => .error e
    | .ok ranges => .ok ⟨ascender_px asc, descender_px desc, gs, ranges⟩

/-- One RGBA pixel with 8-bit channels, as decoded for `Image::load`. -/
structure RGBA where
  r : Nat
  g : Nat
  b : Nat
  a : Nat
deriving DecidableEq

/-- The `avg_color` of `Image::load`: `(pixel.r + pixel.g + pixel.b) / 3`
computed in `u8` arithmetic, so the channel sum wraps modulo 256 (release
semantics; a debug build panics on the overflow). -/
def avg_color (p : RGBA) : Nat := ((p.r + p.g + p.b) % 256) / 3

/-- The `level` of `Image::load`: `(255 - avg_color) as u32 * alpha as u32 /
255` (no further overflow: `avg_color ≤ 85`). -/
def pixel_level (p : RGBA) : Nat := (255 - avg_color p) * p.a / 255

/-- Whether `Image::load` sets the output bit for this pixel. -/
def pixel_dark (p : RGBA) : Bool := pixel_level p < 128

/-- Average formalised from Claim C5's words (the unweighted average of the
channels, without the `u8` wrap), for comparison with `avg_color`. -/
def avg_rgb_claim (p : RGBA) : Nat := (p.r + p.g + p.b) / 3

/-- Level formalised from Claim C5's words, built on `avg_rgb_claim`. -/
def level_claim (p : RGBA) : Nat := (255 - avg_rgb_claim p) * p.a / 255

/-- Row stride of `Image::load`: `(width + 7) / 8` bytes. -/
def image_stride (width : Nat) : Nat := (width + 7) / 8

/-- Inner-loop body of `Image::load` for pixel `(y, x)`: when the darkness
level passes the threshold, OR bit `x & 7` (LSB-first) into byte
`y * stride + x / 8`. -/
def image_set_pixel (pixels : List RGBA) (width y : Nat) (d : List Nat)
    (x : Nat) : List Nat :=
  let p := pixels.getD (y * width + x) ⟨0, 0, 0, 0⟩
  if pixel_level p < 128 then
    let idx := y * image_stride width + x / 8
    d.set idx (d.getD idx 0 ||| (1 <<< (x &&& 7)))
  else d

/-- The 1-bpp buffer produced by `Image::load` from the decoded RGBA pixels
(row-major, `stride * height` bytes, initially zero). -/
def image_load_data (pixels : List RGBA) (width height : Nat) : List Nat :=
  (List.range height).foldl
    (fun d y => (List.range width).foldl (image_set_pixel pixels width y) d)
    (List.replicate (image_stride width * height) 0)

/-- The `(y, x)` iteration order of the nested pixel loops of `Image::load`,
flattened (proof device). -/
def imagePairs (width height : Nat) : List (Nat × Nat) :=
  (List.range height).flatMap
    (fun y => (List.range width).map (fun x => (y, x)))

theorem getBit_le_one (row : List Nat) (i : Nat) : getBit row i ≤ 1 := by
  unfold getBit
  rw [Nat.and_one_is_mod]
  omega

theorem init_color_eq (row : List Nat) :
    ((row.getD 0 0) &&& 128) >>> 7 = getBit row 0 := by
  unfold getBit
  simp only [Nat.zero_div, Nat.zero_mod, Nat.sub_zero]
  apply Nat.eq_of_testBit_eq
  intro j
  have h128 : (128 : Nat) = 2 ^ 7 := by norm_num
  have h1 : (1 : Nat) = 2 ^ 0 := by norm_num
  rw [h128, h1]
  simp only [Nat.testBit_shiftRight, Nat.testBit_and, Nat.testBit_two_pow]
  have hiff : (7 = 7 + j) ↔ (0 = j) := by omega
  rw [decide_eq_decide.mpr hiff]

theorem pack_eq (c l : Nat) (hl : l < 32768) :
    (c <<< 15) ||| l = 32768 * c + l := by
  have h15 : (32768 : Nat) = 2 ^ 15 := by norm_num
  rw [Nat.shiftLeft_eq, h15, Nat.mul_comm c]
  exact (Nat.mul_add_lt_is_or (by omega) c).symm

theorem pack_mod (c l : Nat) (hl : l < 32768) :
    ((c <<< 15) ||| l) % 32768 = l := by
  rw [pack_eq c l hl]
  omega

theorem pack_div (c l : Nat) (hl : l < 32768) :
    ((c <<< 15) ||| l) / 32768 = c := by
  rw [pack_eq c l hl]
  omega

theorem pack_lt (c l : Nat) (hc : c ≤ 1) (hl : l < 32768) :
    ((c <<< 15) ||| l) < 65536 := by
  rw [pack_eq c l hl]
  omega

theorem rowBits_succ (row : List Nat) (k : Nat) :
    rowBits row (k + 1) = rowBits row k ++ [getBit row k] := by
  unfold rowBits
  rw [List.range_succ, List.map_append]
  rfl

theorem expandRLE_append (a b : List Nat) :
    expandRLE (a ++ b) = expandRLE a ++ expandRLE b := by
  unfold expandRLE
  exact List.flatMap_append a b _

theorem expandRLE_single (w : Nat) :
    expandRLE [w] = List.replicate (w % 32768) (w / 32768) := by
  simp [expandRLE]

theorem rleStep_extend (row : List Nat) (c l : Nat) (out : List Nat) (i : Nat)
    (h : getBit row i = c) :
    rleStep row (c, l, out) i = (c, (l + 1) % 65536, out) := by
  simp [rleStep, h]

theorem rleStep_flush (row : List Nat) (c l : Nat) (out : List Nat) (i : Nat)
    (h : getBit row i ≠ c) :
    rleStep row (c, l, out) i = (getBit row i, 1, out ++ [(c <<< 15) ||| l]) := by
  simp [rleStep, h]

/-- The encoder only appends to its output accumulator. -/
theorem rle_fold_frame (row : List Nat) (L : List Nat) :
    ∀ c l out, L.foldl (rleStep row) (c, l, out)
      = ((L.foldl (rleStep row) (c, l, [])).1,
         (L.foldl (rleStep row) (c, l, [])).2.1,
         out ++ (L.foldl (rleStep row) (c, l, [])).2.2) := by
  induction L with
  | nil => intro c l out; simp
  | cons i L ih =>
    intro c l out
    by_cases h : getBit row i = c
    · simp only [List.foldl_cons, rleStep_extend row c l _ i h]
      exact ih c ((l + 1) % 65536) out
    · simp only [List.foldl_cons, rleStep_flush row c l _ i h, List.nil_append]
      rw [ih _ 1 (out ++ [(c <<< 15) ||| l]), ih _ 1 [(c <<< 15) ||| l]]
      simp

theorem generate_rle_eq_append (output row : List Nat) (width : Nat) :
    generate_rle output row width = output ++ generate_rle [] row width := by
  unfold generate_rle
  rw [rle_fold_frame row (List.range width) _ 0 output]
  simp

theorem getBit_zero_row (m i : Nat) : getBit (List.replicate m 0) i = 0 := by
  unfold getBit
  have h : (List.replicate m (0 : Nat)).getD (i / 8) 0 = 0 := by
    rcases Nat.lt_or_ge (i / 8) m with h | h
    · simp [List.getD_eq_getElem?_getD, List.getElem?_replicate, h]
    · simp [List.getD_eq_getElem?_getD, List.getElem?_replicate, Nat.not_lt.mpr h]
  rw [h]
  simp

theorem rle_fold_zero_row (m w : Nat) :
    (List.range w).foldl (rleStep (List.replicate m 0)) (0, 0, ([] : List Nat))
      = (0, w % 65536, ([] : List Nat)) := by
  induction w with
  | zero => simp
  | succ w ih =>
    rw [List.range_succ, List.foldl_append, ih]
    simp only [List.foldl_cons, List.foldl_nil,
      rleStep_extend _ 0 (w % 65536) [] w (getBit_zero_row m w)]
    have : (w % 65536 + 1) % 65536 = (w + 1) % 65536 := by omega
    rw [this]

/-- On an all-zero row of any width the encoder emits exactly one word whose
value is the width reduced modulo 2^16 (the `u16` run-length counter). -/
theorem generate_rle_zero_row (m w : Nat) :
    generate_rle [] (List.replicate m 0) w = [w % 65536] := by
  unfold generate_rle
  have h0 : ((List.replicate m (0 : Nat)).getD 0 0 &&& 128) >>> 7 = 0 := by
    rw [init_color_eq, getBit_zero_row]
  rw [h0, rle_fold_zero_row]
  simp

/-- Master invariant of the encoding loop, for rows of width at most 32767 (so
that the `u16` run-length counter and the 15-bit length field never overflow):
after `k` steps the current color is the bit just read, the current length is
in `[1, k]`, the flushed words expand (with the pending run) to the first `k`
bits, every flushed word is a valid run word, and colors alternate. -/
theorem rle_master (row : List Nat) (width : Nat) (hw : width ≤ 32767) :
    ∀ k, 1 ≤ k → k ≤ width → ∀ c l out,
      (List.range k).foldl (rleStep row) (getBit row 0, 0, []) = (c, l, out) →
      c = getBit row (k - 1) ∧ 1 ≤ l ∧ l ≤ k ∧
      expandRLE out ++ List.replicate l c = rowBits row k ∧
      (∀ w ∈ out, w < 65536 ∧ 1 ≤ w % 32768) ∧
      List.Chain' (fun a b => a / 32768 ≠ b / 32768)
        (out ++ [(c <<< 15) ||| l]) := by
  intro k
  induction k with
  | zero => omega
  | succ k ih =>
    intro _ hkw c l out hF
    rcases Nat.eq_zero_or_pos k with hk0 | hk0
    · -- base case: the very first bit always extends the initial run
      subst hk0
      simp only [List.range_succ, List.range_zero, List.nil_append,
        List.foldl_cons, List.foldl_nil,
        rleStep_extend row (getBit row 0) 0 [] 0 rfl, Prod.mk.injEq] at hF
      obtain ⟨rfl, rfl, rfl⟩ := hF
      refine ⟨rfl, by omega, by omega, ?_, by simp, by simp⟩
      have hr1 : List.range 1 = [0] := rfl
      simp [expandRLE, rowBits, hr1]
    · -- inductive step
      rw [List.range_succ, List.foldl_append] at hF
      rcases hprev : (List.range k).foldl (rleStep row)
          (getBit row 0, 0, ([] : List Nat)) with ⟨c0, l0, out0⟩
      rw [hprev] at hF
      simp only [List.foldl_cons, List.foldl_nil] at hF
      obtain ⟨hc0, hl01, hl0k, hexp0, hwords0, hchain0⟩ :=
        ih hk0 (by omega) c0 l0 out0 hprev
      have hl0lt : l0 < 32768 := by omega
      have hc0le : c0 ≤ 1 := by rw [hc0]; exact getBit_le_one row (k - 1)
      by_cases hbit : getBit row k = c0
      · -- same color: the pending run grows by one
        rw [rleStep_extend row c0 l0 out0 k hbit] at hF
        simp only [Prod.mk.injEq] at hF
        obtain ⟨rfl, rfl, rfl⟩ := hF
        have hmod : (l0 + 1) % 65536 = l0 + 1 := by omega
        rw [hmod]
        have hl1lt : l0 + 1 < 32768 := by omega
        refine ⟨by rw [Nat.add_sub_cancel, hbit], by omega, by omega, ?_, hwords0, ?_⟩
        · rw [List.replicate_succ', ← List.append_assoc, hexp0, rowBits_succ, hbit]
        · obtain ⟨ha, _, hrel⟩ := List.chain'_append.mp hchain0
          refine List.chain'_append.mpr ⟨ha, List.chain'_singleton _, ?_⟩
          intro x hx y hy
          simp only [List.head?_cons, Option.mem_def, Option.some.injEq] at hy
          subst hy
          rw [pack_div c0 (l0 + 1) hl1lt]
          have h2 := hrel x hx ((c0 <<< 15) ||| l0) (by simp)
          rw [pack_div c0 l0 hl0lt] at h2
          exact h2
      · -- color change: flush the pending run and start a new one
        rw [rleStep_flush row c0 l0 out0 k hbit] at hF
        simp only [Prod.mk.injEq] at hF
        obtain ⟨rfl, rfl, rfl⟩ := hF
        refine ⟨by rw [Nat.add_sub_cancel], by omega, by omega, ?_, ?_, ?_⟩
        · rw [expandRLE_append, expandRLE_single, pack_mod c0 l0 hl0lt,
            pack_div c0 l0 hl0lt, hexp0, rowBits_succ, List.replicate_one]
        · intro w hw
          rcases List.mem_append.mp hw with hw | hw
          · exact hwords0 w hw
          · simp only [List.mem_singleton] at hw
            subst hw
            exact ⟨pack_lt c0 l0 hc0le hl0lt, by rw [pack_mod c0 l0 hl0lt]; omega⟩
        · refine List.chain'_append.mpr ⟨hchain0, List.chain'_singleton _, ?_⟩
          intro x hx y hy
          simp only [List.head?_cons, Option.mem_def, Option.some.injEq] at hy
          subst hy
          rw [List.getLast?_concat, Option.mem_def, Option.some.injEq] at hx
          subst hx
          rw [pack_div c0 l0 hl0lt, pack_div _ 1 (by omega)]
          intro hcc
          exact hbit hcc.symm

/-- Claim C1 (amended): for every bit row of width in `[1, 32767]` (with the
row holding at least `width` bits), expanding the run sequence produced by
`generate_rle` — repeating each run word's color (top bit) for its length
(low 15 bits), in emission order — reproduces exactly the first `width` bits
of the row, read MSB-first within each byte. The original claim's unbounded
width fails: a 15-bit length field cannot hold runs longer than 32767. -/
theorem claim_C1 (row : List Nat) (width : Nat) (h1 : 1 ≤ width)
    (h2 : width ≤ 32767) (_h3 : width ≤ 8 * row.length) :
    expandRLE (generate_rle [] row width) = rowBits row width := by
  unfold generate_rle
  rw [init_color_eq]
  rcases hF : (List.range width).foldl (rleStep row)
      (getBit row 0, 0, ([] : List Nat)) with ⟨c, l, out⟩
  obtain ⟨hc, hl1, hlk, hexp, hwords, hchain⟩ :=
    rle_master row width h2 width h1 le_rfl c l out hF
  dsimp only
  rw [expandRLE_append, expandRLE_single, pack_mod c l (by omega),
    pack_div c l (by omega), hexp]

/-- Witness for Claim C1 at row `[160]` (bits 1,0,1), width 3. -/
theorem claim_C1_witness :
    expandRLE (generate_rle [] [160] 3) = rowBits [160] 3 :=
  claim_C1 [160] 3 (by decide) (by decide) (by decide)

/-- Counterexample to Claim C1 as stated: on an all-zero row of width 32768
the single emitted run word is 32768, whose low 15 bits decode to length 0,
so the expansion is empty and cannot reproduce the 32768 input bits. -/
theorem claim_C1_counterexample :
    expandRLE (generate_rle [] (List.replicate 4096 0) 32768)
      ≠ rowBits (List.replicate 4096 0) 32768 := by
  rw [generate_rle_zero_row]
  intro h
  have h1 : (expandRLE [32768 % 65536]).length = 0 := by
    rw [expandRLE_single, List.length_replicate]
  have h2 : (rowBits (List.replicate 4096 0) 32768).length = 32768 := by
    unfold rowBits
    rw [List.length_map, List.length_range]
  rw [h] at h1
  omega

/-- Claim C7 (amended): for every bit row of width in `[1, 32767]` (with the
row holding at least `width` bits), every word emitted by `generate_rle` is a
single 16-bit word whose low 15 bits (the run length) lie in `[1, 32767]` and
whose top bit (the run color) is 0 or 1, and no two adjacent emitted runs
share the same color. The original claim's assertion that this also holds
for single-color rows wider than 32767 pixels fails: such a run length
overflows the 15-bit field into the color bit. -/
theorem claim_C7 (row : List Nat) (width : Nat) (h1 : 1 ≤ width)
    (h2 : width ≤ 32767) (_h3 : width ≤ 8 * row.length) :
    (∀ w ∈ generate_rle [] row width,
      w < 65536 ∧ 1 ≤ w % 32768 ∧ w % 32768 ≤ 32767 ∧ w / 32768 ≤ 1) ∧
    List.Chain' (fun a b => a / 32768 ≠ b / 32768)
      (generate_rle [] row width) := by
  unfold generate_rle
  rw [init_color_eq]
  rcases hF : (List.range width).foldl (rleStep row)
      (getBit row 0, 0, ([] : List Nat)) with ⟨c, l, out⟩
  obtain ⟨hc, hl1, hlk, hexp, hwords, hchain⟩ :=
    rle_master row width h2 width h1 le_rfl c l out hF
  dsimp only
  have hclt : c ≤ 1 := by rw [hc]; exact getBit_le_one row (width - 1)
  have hllt : l < 32768 := by omega
  refine ⟨?_, hchain⟩
  intro w hw
  rcases List.mem_append.mp hw with hw | hw
  · obtain ⟨hlt, hge⟩ := hwords w hw
    exact ⟨hlt, hge, by omega, by omega⟩
  · simp only [List.mem_singleton] at hw
    subst hw
    refine ⟨pack_lt c l hclt hllt, ?_, ?_, ?_⟩
    · rw [pack_mod c l hllt]; omega
    · rw [pack_mod c l hllt]; omega
    · rw [pack_div c l hllt]; exact hclt

/-- Witness for Claim C7 at row `[160]` (bits 1,0,1), width 3. -/
theorem claim_C7_witness :
    (∀ w ∈ generate_rle [] [160] 3,
      w < 65536 ∧ 1 ≤ w % 32768 ∧ w % 32768 ≤ 32767 ∧ w / 32768 ≤ 1) ∧
    List.Chain' (fun a b => a / 32768 ≠ b / 32768) (generate_rle [] [160] 3) :=
  claim_C7 [160] 3 (by decide) (by decide) (by decide)

/-- Counterexample to Claim C7 as stated: on an all-zero row of width 32768
(wider than 32767 pixels, single color) the emitted word is 32768, whose low
15 bits are 0, violating the claimed run-length range `[1, 32767]`. -/
theorem claim_C7_counterexample :
    ¬ (∀ w ∈ generate_rle [] (List.replicate 4096 0) 32768, 1 ≤ w % 32768) := by
  rw [generate_rle_zero_row]
  intro h
  have hmem := h (32768 % 65536) (by simp)
  norm_num at hmem

theorem getD_set_eq (l : List Nat) (n a d : Nat) (h : n < l.length) :
    (l.set n a).getD n d = a := by
  simp [List.getD_eq_getElem?_getD, List.getElem?_set_self, h]

theorem getD_set_ne (l : List Nat) (n m a d : Nat) (h : n ≠ m) :
    (l.set n a).getD m d = l.getD m d := by
  simp [List.getD_eq_getElem?_getD, List.getElem?_set_ne h]

theorem getD_append_left (l t : List Nat) (i d : Nat) (h : i < l.length) :
    (l ++ t).getD i d = l.getD i d := by
  simp [List.getD_eq_getElem?_getD, List.getElem?_append_left h]

theorem getD_replicate_zero (n i : Nat) :
    (List.replicate n (0 : Nat)).getD i 0 = 0 := by
  rcases Nat.lt_or_ge i n with h | h
  · simp [List.getD_eq_getElem?_getD, List.getElem?_replicate, h]
  · simp [List.getD_eq_getElem?_getD, List.getElem?_replicate, Nat.not_lt.mpr h]

theorem rleImageOffset_zero (buffer : List Nat) (pitch width height : Nat) :
    rleImageOffset buffer pitch width height 0 = height + 1 := by
  simp [rleImageOffset]

theorem rleImageOffset_succ (buffer : List Nat) (pitch width height k : Nat) :
    rleImageOffset buffer pitch width height (k + 1)
      = rleImageOffset buffer pitch width height k
        + (rowWords buffer pitch width k).length := by
  simp [rleImageOffset, List.range_succ]
  omega

theorem rleImageOffset_le (buffer : List Nat) (pitch width height : Nat)
    {k j : Nat} (hkj : k ≤ j) :
    rleImageOffset buffer pitch width height k
      ≤ rleImageOffset buffer pitch width height j := by
  induction j with
  | zero =>
    have h0 : k = 0 := by omega
    subst h0
    exact le_rfl
  | succ j ih =>
    rcases Nat.eq_or_lt_of_le hkj with h | h
    · subst h
      exact le_rfl
    · have hk : k ≤ j := by omega
      calc rleImageOffset buffer pitch width height k
          ≤ rleImageOffset buffer pitch width height j := ih hk
        _ ≤ _ := by rw [rleImageOffset_succ]; omega

theorem offset_lower_bound (buffer : List Nat) (pitch width height k : Nat) :
    height + 1 ≤ rleImageOffset buffer pitch width height k := by
  have h := rleImageOffset_le buffer pitch width height (Nat.zero_le k)
  rw [rleImageOffset_zero] at h
  exact h

theorem rleImageStep_eq (buffer : List Nat) (pitch width : Nat)
    (data : List Nat) (y : Nat) :
    rleImageStep buffer pitch width data y
      = (generate_rle data ((buffer.drop (y * pitch)).take pitch) width).set
          (y + 1)
          ((generate_rle data ((buffer.drop (y * pitch)).take pitch)
            width).length % 65536) := rfl

/-- Invariant of the row loop of `generate_rle_image`: after `k` rows the
list is `rleImageOffset .. k` words long, header slot `i ≤ k` holds the `u16`
reduction of the word offset of row `i`, and the header slots of the
still-unprocessed rows hold 0. -/
theorem rle_image_fold_inv (buffer : List Nat) (pitch width height : Nat) :
    ∀ k, k ≤ height → ∀ d,
      (List.range k).foldl (rleImageStep buffer pitch width)
          ((List.replicate (height + 1) 0).set 0 ((height + 1) % 65536)) = d →
      d.length = rleImageOffset buffer pitch width height k ∧
      (∀ i, i ≤ k →
        d.getD i 0 = rleImageOffset buffer pitch width height i % 65536) ∧
      (∀ i, k < i → i ≤ height → d.getD i 0 = 0) := by
  intro k
  induction k with
  | zero =>
    intro _ d hd
    subst hd
    refine ⟨?_, ?_, ?_⟩
    · rw [List.range_zero, List.foldl_nil, List.length_set,
        List.length_replicate, rleImageOffset_zero]
    · intro i hi
      have h0 : i = 0 := by omega
      subst h0
      rw [List.range_zero, List.foldl_nil, rleImageOffset_zero,
        getD_set_eq _ _ _ _ (by simp)]
    · intro i hi0 hih
      rw [List.range_zero, List.foldl_nil, getD_set_ne _ _ _ _ _ (by omega),
        getD_replicate_zero]
  | succ k ih =>
    intro hk d hd
    have hkh : k ≤ height := by omega
    obtain ⟨hlen, hhdr, hzero⟩ := ih hkh _ rfl
    rw [List.range_succ, List.foldl_append, List.foldl_cons, List.foldl_nil,
      rleImageStep_eq, generate_rle_eq_append] at hd
    set dk := (List.range k).foldl (rleImageStep buffer pitch width)
      ((List.replicate (height + 1) 0).set 0 ((height + 1) % 65536)) with hdk
    have hW : generate_rle []
        ((buffer.drop (k * pitch)).take pitch) width
        = rowWords buffer pitch width k := rfl
    rw [hW] at hd
    have hlen1 : (dk ++ rowWords buffer pitch width k).length
        = rleImageOffset buffer pitch width height (k + 1) := by
      rw [List.length_append, hlen, rleImageOffset_succ]
    have hbound : k + 1 < (dk ++ rowWords buffer pitch width k).length := by
      rw [hlen1]
      have := offset_lower_bound buffer pitch width height (k + 1)
      omega
    subst hd
    refine ⟨?_, ?_, ?_⟩
    · rw [List.length_set, hlen1]
    · intro i hi
      rcases Nat.eq_or_lt_of_le hi with h | h
      · subst h
        rw [getD_set_eq _ _ _ _ hbound, hlen1]
      · have hik : i ≤ k := by omega
        rw [getD_set_ne _ _ _ _ _ (by omega),
          getD_append_left _ _ _ _ (by
            rw [hlen]
            have := offset_lower_bound buffer pitch width height k
            omega)]
        exact hhdr i hik
    · intro i hi1 hih
      rw [getD_set_ne _ _ _ _ _ (by omega),
        getD_append_left _ _ _ _ (by
          rw [hlen]
          have := offset_lower_bound buffer pitch width height k
          omega)]
      exact hzero i (by omega) hih

/-- Claim C3 (amended): for every bitmap of height `H ≥ 1` (each row
non-empty) encoded by `generate_rle_image`, provided the encoded image fits
the 16-bit header words (total word count at most 65535): the header block
consists of `H + 1` words, `header[0] = H + 1`, the header words are
non-decreasing, and `header[H]` (not `header[H - 1]`, which is the start
offset of the last row) equals the total word count of the encoded image. -/
theorem claim_C3 (buffer : List Nat) (pitch width height : Nat)
    (hh : 1 ≤ height) (_hw : 1 ≤ width)
    (hbound : (generate_rle_image buffer pitch width height).length ≤ 65535) :
    (generate_rle_image buffer pitch width height).getD 0 0 = height + 1 ∧
    (∀ i j, i ≤ j → j ≤ height →
      (generate_rle_image buffer pitch width height).getD i 0 ≤
        (generate_rle_image buffer pitch width height).getD j 0) ∧
    (generate_rle_image buffer pitch width height).getD height 0 =
      (generate_rle_image buffer pitch width height).length := by
  obtain ⟨hlen, hhdr, hzero⟩ :=
    rle_image_fold_inv buffer pitch width height height le_rfl
      (generate_rle_image buffer pitch width height) rfl
  rw [hlen] at hbound
  have hmod : ∀ i, i ≤ height →
      rleImageOffset buffer pitch width height i % 65536
        = rleImageOffset buffer pitch width height i := by
    intro i hi
    have h1 := rleImageOffset_le buffer pitch width height hi
    omega
  refine ⟨?_, ?_, ?_⟩
  · rw [hhdr 0 (by omega), hmod 0 (by omega), rleImageOffset_zero]
  · intro i j hij hjh
    rw [hhdr i (by omega), hhdr j hjh, hmod i (by omega), hmod j hjh]
    exact rleImageOffset_le buffer pitch width height hij
  · rw [hhdr height le_rfl, hmod height le_rfl, hlen]

/-- Witness for Claim C3 on the 1x1 all-background bitmap, whose encoding is
`[2, 3, 1]`. -/
theorem claim_C3_witness :
    (generate_rle_image [0] 1 1 1).getD 0 0 = 1 + 1 ∧
    (∀ i j, i ≤ j → j ≤ 1 →
      (generate_rle_image [0] 1 1 1).getD i 0 ≤
        (generate_rle_image [0] 1 1 1).getD j 0) ∧
    (generate_rle_image [0] 1 1 1).getD 1 0 =
      (generate_rle_image [0] 1 1 1).length :=
  claim_C3 [0] 1 1 1 (by decide) (by decide) (by decide)

/-- Counterexample to Claim C3 as stated: the 1x1 all-background bitmap
encodes to `[2, 3, 1]` — `header[0] = 2 = H + 1` holds, but `header[H - 1] =
header[0] = 2` is the start offset of the last row, not the total word count
3; the total sits in `header[H] = header[1]`. -/
theorem claim_C3_counterexample :
    (generate_rle_image [0] 1 1 1).getD 0 0 = 2 ∧
    (generate_rle_image [0] 1 1 1).length = 3 ∧
    (generate_rle_image [0] 1 1 1).getD (1 - 1) 0 ≠
      (generate_rle_image [0] 1 1 1).length := by
  refine ⟨by decide, by decide, by decide⟩

theorem optOr_some (x : Nat) (b : Option Nat) : optOr (some x) b = some x := rfl

theorem optOr_none (b : Option Nat) : optOr none b = b := rfl

theorem optOr_assoc (a b c : Option Nat) :
    optOr (optOr a b) c = optOr a (optOr b c) := by
  cases a <;> rfl

theorem optOr_map (f : Nat → Nat) (a b : Option Nat) :
    (optOr a b).map f = optOr (a.map f) (b.map f) := by
  cases a <;> rfl

theorem lookupGlyphIndex_nil (c : Nat) : lookupGlyphIndex [] c = none := rfl

theorem lookupGlyphIndex_cons (s len base : Nat)
    (rest : List (Nat × Nat × Nat)) (c : Nat) :
    lookupGlyphIndex ((s, len, base) :: rest) c
      = if s ≤ c ∧ c < s + len then some (base + (c - s))
        else lookupGlyphIndex rest c := rfl

theorem lookupGlyphIndex_append (r1 r2 : List (Nat × Nat × Nat)) (c : Nat) :
    lookupGlyphIndex (r1 ++ r2) c
      = optOr (lookupGlyphIndex r1 c) (lookupGlyphIndex r2 c) := by
  induction r1 with
  | nil => rw [List.nil_append, lookupGlyphIndex_nil, optOr_none]
  | cons p r1 ih =>
    rcases p with ⟨s, len, base⟩
    rw [List.cons_append, lookupGlyphIndex_cons, lookupGlyphIndex_cons]
    split_ifs with h
    · rw [optOr_some]
    · exact ih

theorem findPos_nil (c : Nat) : findPos c [] = none := rfl

theorem findPos_cons (c a : Nat) (l : List Nat) :
    findPos c (a :: l)
      = if a = c then some 0 else (findPos c l).map (· + 1) := rfl

theorem findPos_append_singleton (c a : Nat) (l : List Nat) :
    findPos c (l ++ [a])
      = optOr (findPos c l) (if a = c then some l.length else none) := by
  induction l with
  | nil =>
    rw [List.nil_append, findPos_cons, findPos_nil, optOr_none]
    split_ifs with h <;> rfl
  | cons b l ih =>
    rw [List.cons_append, findPos_cons, findPos_cons]
    by_cases h : b = c
    · rw [if_pos h, if_pos h]
      rfl
    · rw [if_neg h, if_neg h, ih, optOr_map]
      congr 1
      split_ifs with h2 <;> rfl

/-- Lookup in a single range of length 1 is an equality test. -/
theorem lookupGlyphIndex_single_one (s b c : Nat) :
    lookupGlyphIndex [(s, 1, b)] c = if s = c then some b else none := by
  rw [lookupGlyphIndex_cons, lookupGlyphIndex_nil]
  by_cases h : s = c
  · rw [if_pos ⟨Nat.le_of_eq h, by omega⟩, if_pos h]
    simp only [Option.some.injEq]
    omega
  · rw [if_neg (by omega), if_neg h]

/-- Growing a range by one slot on the right covers exactly one further
character, which maps to the position just past the old range. -/
theorem lookupGlyphIndex_single_grow (rs rl i c : Nat) (hrl : rl ≤ i) :
    lookupGlyphIndex [(rs, rl + 1, i - rl)] c
      = optOr (lookupGlyphIndex [(rs, rl, i - rl)] c)
          (if rs + rl = c then some i else none) := by
  rw [lookupGlyphIndex_cons, lookupGlyphIndex_nil,
    lookupGlyphIndex_cons, lookupGlyphIndex_nil]
  by_cases h1 : rs ≤ c ∧ c < rs + rl
  · rw [if_pos ⟨h1.1, by omega⟩, if_pos h1, optOr_some]
  · rw [if_neg h1, optOr_none]
    by_cases h2 : rs + rl = c
    · rw [if_pos (⟨by omega, by omega⟩ : rs ≤ c ∧ c < rs + (rl + 1)), if_pos h2]
      simp only [Option.some.injEq]
      omega
    · rw [if_neg (by omega), if_neg h2]

theorem glyphIndexStep_extend (rs rl i : Nat) (code : List (Nat × Nat × Nat))
    (c : Nat) (h : c = rs + rl) :
    glyphIndexStep ⟨rs, rl, i, code⟩ c = ⟨rs, rl + 1, i + 1, code⟩ := by
  simp [glyphIndexStep, h]

theorem glyphIndexStep_flush (rs rl i : Nat) (code : List (Nat × Nat × Nat))
    (c : Nat) (h : c ≠ rs + rl) :
    glyphIndexStep ⟨rs, rl, i, code⟩ c
      = ⟨c, 1, i + 1, code ++ [(rs, rl, i - rl)]⟩ := by
  simp [glyphIndexStep, h]

/-- Invariant of the scan loop of `Font::generate_get_glyph_index`: the loop
index counts the consumed characters, the open run is non-empty and no longer
than the input consumed so far, and first-match lookup over the emitted
ranges (closed with the open run) is exactly first-occurrence position search
in the consumed input. -/
theorem glyph_scan_inv (c0 : Nat) (rest : List Nat) :
    ∀ rs rl i code,
      rest.foldl glyphIndexStep ⟨c0, 1, 1, []⟩ = ⟨rs, rl, i, code⟩ →
      i = rest.length + 1 ∧ 1 ≤ rl ∧ rl ≤ i ∧
      ∀ c, lookupGlyphIndex (code ++ [(rs, rl, i - rl)]) c
          = findPos c (c0 :: rest) := by
  induction rest using List.reverseRecOn with
  | nil =>
    intro rs rl i code h
    rw [List.foldl_nil] at h
    simp only [ScanState.mk.injEq] at h
    obtain ⟨rfl, rfl, rfl, rfl⟩ := h
    refine ⟨rfl, le_rfl, le_rfl, ?_⟩
    intro c
    rw [List.nil_append, lookupGlyphIndex_single_one, findPos_cons, findPos_nil]
    split_ifs with h1 <;> rfl
  | append_singleton l a ih =>
    intro rs rl i code h
    rw [List.foldl_append, List.foldl_cons, List.foldl_nil] at h
    rcases hst : l.foldl glyphIndexStep ⟨c0, 1, 1, []⟩ with ⟨rs0, rl0, i0, code0⟩
    rw [hst] at h
    obtain ⟨hi0, hrl01, hrl0i, hlook⟩ := ih rs0 rl0 i0 code0 hst
    have hcons : c0 :: (l ++ [a]) = (c0 :: l) ++ [a] := rfl
    have hlen : (c0 :: l).length = i0 := by
      rw [List.length_cons]
      omega
    have hlsum : (l ++ [a]).length + 1 = i0 + 1 := by
      rw [List.length_append]
      simp
      omega
    by_cases hb : a = rs0 + rl0
    · rw [glyphIndexStep_extend rs0 rl0 i0 code0 a hb] at h
      simp only [ScanState.mk.injEq] at h
      obtain ⟨rfl, rfl, rfl, rfl⟩ := h
      refine ⟨by omega, by omega, by omega, ?_⟩
      intro c
      have hidx : i0 + 1 - (rl0 + 1) = i0 - rl0 := by omega
      rw [hidx, hcons, findPos_append_singleton, ← hlook c, hlen,
        lookupGlyphIndex_append, lookupGlyphIndex_append, optOr_assoc, hb,
        lookupGlyphIndex_single_grow rs0 rl0 i0 c hrl0i]
    · rw [glyphIndexStep_flush rs0 rl0 i0 code0 a hb] at h
      simp only [ScanState.mk.injEq] at h
      obtain ⟨rfl, rfl, rfl, rfl⟩ := h
      refine ⟨by omega, by omega, by omega, ?_⟩
      intro c
      have hidx : i0 + 1 - 1 = i0 := by omega
      rw [hidx, hcons, findPos_append_singleton, ← hlook c, hlen,
        lookupGlyphIndex_append, lookupGlyphIndex_single_one]

theorem findPos_eq_none (c : Nat) (l : List Nat) (h : c ∉ l) :
    findPos c l = none := by
  induction l with
  | nil => rfl
  | cons a l ih =>
    rw [findPos_cons,
      if_neg (fun ha => h (by rw [← ha]; exact List.mem_cons_self a l)),
      ih (fun hc => h (List.mem_cons_of_mem a hc)), Option.map_none']

theorem findPos_get (l : List Nat) (hnd : l.Nodup) (i : Nat)
    (hi : i < l.length) : findPos (l.get ⟨i, hi⟩) l = some i := by
  induction l generalizing i with
  | nil => simp at hi
  | cons a l ih =>
    rcases List.nodup_cons.mp hnd with ⟨hmem, hnd2⟩
    cases i with
    | zero =>
      have hget : (a :: l).get ⟨0, hi⟩ = a := rfl
      rw [hget, findPos_cons, if_pos rfl]
    | succ i =>
      have hi2 : i < l.length := by
        rw [List.length_cons] at hi
        omega
      have hget : (a :: l).get ⟨i + 1, hi⟩ = l.get ⟨i, hi2⟩ := rfl
      rw [hget, findPos_cons,
        if_neg (fun ha => hmem (by rw [ha]; exact List.get_mem ..)),
        ih hnd2 i hi2, Option.map_some']

/-- First-match lookup over the compiled ranges of a sorted, strictly
increasing, non-empty character list maps the character at input position `i`
to `i` and everything outside the input to `none`. -/
theorem compile_ranges_lookup (chars : List Nat) (hne : chars ≠ [])
    (hsorted : List.Chain' (fun a b => a < b) chars) :
    (∀ i, (hi : i < chars.length) →
      lookupGlyphIndex (compile_ranges chars) (chars.get ⟨i, hi⟩) = some i) ∧
    (∀ c, c ∉ chars → lookupGlyphIndex (compile_ranges chars) c = none) := by
  match chars, hne with
  | c0 :: rest, _ =>
    rcases hst : rest.foldl glyphIndexStep ⟨c0, 1, 1, []⟩ with ⟨rs, rl, i, code⟩
    obtain ⟨hi, hrl1, hrli, hlook⟩ := glyph_scan_inv c0 rest rs rl i code hst
    have hcr : compile_ranges (c0 :: rest)
        = code ++ [(rs, rl, (c0 :: rest).length - rl)] := by
      have hcr0 : compile_ranges (c0 :: rest)
          = (rest.foldl glyphIndexStep ⟨c0, 1, 1, []⟩).code
            ++ [((rest.foldl glyphIndexStep ⟨c0, 1, 1, []⟩).run_start,
                 (rest.foldl glyphIndexStep ⟨c0, 1, 1, []⟩).run_length,
                 (c0 :: rest).length
                   - (rest.foldl glyphIndexStep ⟨c0, 1, 1, []⟩).run_length)] :=
        rfl
      rw [hst] at hcr0
      exact hcr0
    have hlencons : (c0 :: rest).length = i := by
      rw [List.length_cons]
      omega
    rw [hlencons] at hcr
    have hnd : (c0 :: rest).Nodup := by
      have hp := List.chain'_iff_pairwise.mp hsorted
      exact hp.imp Nat.ne_of_lt
    constructor
    · intro j hj
      rw [hcr, hlook]
      exact findPos_get (c0 :: rest) hnd j hj
    · intro c hc
      rw [hcr, hlook]
      exact findPos_eq_none c (c0 :: rest) hc

/-- Claim C2: for every sorted, strictly increasing, non-empty sequence of
character codes (codes below 0x110000, so the source's `u32`/`usize`
arithmetic is exact), the compiled index maps the character at input position
`i` to glyph index `i` under first-match lookup and maps every character
outside the input to `none`; input `[1,2,3,7,8,10]` yields exactly the ranges
`[(1,3,0), (7,2,3), (10,1,5)]` and input `[65]` yields `[(65,1,0)]`, with the
lookups the spec lists. -/
theorem claim_C2 (chars : List Nat) (hne : chars ≠ [])
    (hsorted : List.Chain' (fun a b => a < b) chars)
    (_hcodes : ∀ c ∈ chars, c < 1114112) :
    (∃ ranges, generate_get_glyph_index chars = Except.ok ranges ∧
      (∀ i, (hi : i < chars.length) →
        lookupGlyphIndex ranges (chars.get ⟨i, hi⟩) = some i) ∧
      (∀ c, c ∉ chars → lookupGlyphIndex ranges c = none)) ∧
    generate_get_glyph_index [1, 2, 3, 7, 8, 10]
      = Except.ok [(1, 3, 0), (7, 2, 3), (10, 1, 5)] ∧
    generate_get_glyph_index [65] = Except.ok [(65, 1, 0)] ∧
    lookupGlyphIndex [(1, 3, 0), (7, 2, 3), (10, 1, 5)] 2 = some 1 ∧
    lookupGlyphIndex [(1, 3, 0), (7, 2, 3), (10, 1, 5)] 8 = some 4 ∧
    lookupGlyphIndex [(1, 3, 0), (7, 2, 3), (10, 1, 5)] 9 = none ∧
    lookupGlyphIndex [(1, 3, 0), (7, 2, 3), (10, 1, 5)] 10 = some 5 := by
  refine ⟨?_, by rfl, by rfl, by rfl, by rfl, by rfl, by rfl⟩
  obtain ⟨h1, h2⟩ := compile_ranges_lookup chars hne hsorted
  match chars, hne with
  | c0 :: rest, _ => exact ⟨compile_ranges (c0 :: rest), rfl, h1, h2⟩

/-- Witness for Claim C2 at the spec's example input `[1,2,3,7,8,10]`. -/
theorem claim_C2_witness :
    (∃ ranges,
      generate_get_glyph_index [1, 2, 3, 7, 8, 10] = Except.ok ranges ∧
      (∀ i, (hi : i < ([1, 2, 3, 7, 8, 10] : List Nat).length) →
        lookupGlyphIndex ranges (([1, 2, 3, 7, 8, 10] : List Nat).get ⟨i, hi⟩)
          = some i) ∧
      (∀ c, c ∉ ([1, 2, 3, 7, 8, 10] : List Nat) →
        lookupGlyphIndex ranges c = none)) ∧
    generate_get_glyph_index [1, 2, 3, 7, 8, 10]
      = Except.ok [(1, 3, 0), (7, 2, 3), (10, 1, 5)] ∧
    generate_get_glyph_index [65] = Except.ok [(65, 1, 0)] ∧
    lookupGlyphIndex [(1, 3, 0), (7, 2, 3), (10, 1, 5)] 2 = some 1 ∧
    lookupGlyphIndex [(1, 3, 0), (7, 2, 3), (10, 1, 5)] 8 = some 4 ∧
    lookupGlyphIndex [(1, 3, 0), (7, 2, 3), (10, 1, 5)] 9 = none ∧
    lookupGlyphIndex [(1, 3, 0), (7, 2, 3), (10, 1, 5)] 10 = some 5 :=
  claim_C2 [1, 2, 3, 7, 8, 10] (by decide) (by norm_num [List.chain'_cons])
    (by decide)

/-- Claim C9 (amended): invoked with zero characters, the sparse-index
compiler fails — by the out-of-bounds read of the first character, modelled
as a panic, producing no range output. The source has no dedicated
`EmptyAlphabetError`. -/
theorem claim_C9 :
    generate_get_glyph_index [] = Except.error BuildError.panic := rfl

/-- Counterexample to Claim C9 as stated: the failure on the empty alphabet
is a panic value, not the spec's `EmptyAlphabetError` — the source defines no
such error. -/
theorem claim_C9_counterexample :
    generate_get_glyph_index [] = Except.error BuildError.panic ∧
    generate_get_glyph_index []
      ≠ Except.error BuildError.emptyAlphabetError := by
  refine ⟨rfl, ?_⟩
  intro h
  have h1 : generate_get_glyph_index [] = Except.error BuildError.panic := rfl
  rw [h1] at h
  injection h with h2
  exact BuildError.noConfusion h2

theorem generate_glyphs_ok (l : List Nat) (f : Nat → GlyphInput)
    (h : ∀ c ∈ l, ¬ (f c).bitmap_top < 0) :
    generate_glyphs l f
      = Except.ok (l.map (fun c => glyphPayload (f c))) := by
  induction l with
  | nil => rfl
  | cons c rest ih =>
    have h1 : generate_glyph (f c) = Except.ok (glyphPayload (f c)) := by
      unfold generate_glyph
      rw [if_neg (h c (List.mem_cons_self ..))]
    simp only [generate_glyphs, h1, List.map_cons]
    rw [ih (fun x hx => h x (List.mem_cons_of_mem c hx))]

theorem generate_glyphs_err (l : List Nat) (f : Nat → GlyphInput)
    (h : ∃ c ∈ l, (f c).bitmap_top < 0) :
    generate_glyphs l f = Except.error BuildError.panic := by
  induction l with
  | nil =>
    obtain ⟨c, hc, _⟩ := h
    exact absurd hc (List.not_mem_nil c)
  | cons c rest ih =>
    by_cases hc : (f c).bitmap_top < 0
    · have h1 : generate_glyph (f c) = Except.error BuildError.panic := by
        unfold generate_glyph
        rw [if_pos hc]
      simp only [generate_glyphs, h1]
    · have h2 : ∃ x ∈ rest, (f x).bitmap_top < 0 := by
        obtain ⟨x, hx, hneg⟩ := h
        rcases List.mem_cons.mp hx with rfl | hx2
        · exact absurd hneg hc
        · exact ⟨x, hx2, hneg⟩
      have h1 : generate_glyph (f c) = Except.ok (glyphPayload (f c)) := by
        unfold generate_glyph
        rw [if_neg hc]
      simp only [generate_glyphs, h1, ih h2]

/-- Claim C8 (amended): if any requested glyph has a negative vertical
bearing, `font_generate` aborts with the assertion panic (the source's
`assert!(glyph.bitmap_top() >= 0)`), emitting no output — but the failure is
a panic, not a dedicated `NegativeBearingError`, which does not exist in the
source; the condition is not auto-corrected. -/
theorem claim_C8 (subset : List Nat) (f : Nat → GlyphInput) (asc desc : Int)
    (h : ∃ c ∈ subset, (f c).bitmap_top < 0) :
    font_generate subset f asc desc = Except.error BuildError.panic := by
  have hmem : ∃ c ∈ font_sorted_subset subset, (f c).bitmap_top < 0 := by
    obtain ⟨c, hc, hneg⟩ := h
    exact ⟨c, (List.perm_insertionSort (fun a b => a ≤ b) subset).mem_iff.mpr hc,
      hneg⟩
  unfold font_generate
  rw [generate_glyphs_err (font_sorted_subset subset) f hmem]

/-- Witness for Claim C8: a single glyph with bearing -1 aborts the build. -/
theorem claim_C8_witness :
    font_generate [65] (fun _ => ⟨[0], 1, 1, 1, 0, -1, 64⟩) 0 0
      = Except.error BuildError.panic :=
  claim_C8 [65] (fun _ => ⟨[0], 1, 1, 1, 0, -1, 64⟩) 0 0
    ⟨65, by decide, by decide⟩

/-- Counterexample to Claim C8 as stated: the abort on a negative bearing is
a panic value, not the spec's `NegativeBearingError` — the source defines no
such error. -/
theorem claim_C8_counterexample :
    font_generate [65] (fun _ => ⟨[0], 1, 1, 1, 0, -1, 64⟩) 0 0
      = Except.error BuildError.panic ∧
    font_generate [65] (fun _ => ⟨[0], 1, 1, 1, 0, -1, 64⟩) 0 0
      ≠ Except.error BuildError.negativeBearingError := by
  have h1 : font_generate [65] (fun _ => ⟨[0], 1, 1, 1, 0, -1, 64⟩) 0 0
      = Except.error BuildError.panic := rfl
  refine ⟨h1, ?_⟩
  intro h
  rw [h1] at h
  injection h with h2
  exact BuildError.noConfusion h2

theorem font_sorted_subset_perm (s : List Nat) :
    (font_sorted_subset s).Perm s :=
  List.perm_insertionSort (fun a b => a ≤ b) s

theorem font_sorted_subset_chain (s : List Nat) (hnd : s.Nodup) :
    List.Chain' (fun a b => a < b) (font_sorted_subset s) := by
  rw [List.chain'_iff_pairwise]
  have hs : List.Pairwise (fun a b => a ≤ b) (font_sorted_subset s) :=
    List.sorted_insertionSort (fun a b => a ≤ b) s
  have hnd2 : (font_sorted_subset s).Nodup :=
    ((font_sorted_subset_perm s).nodup_iff).mpr hnd
  exact (hs.and hnd2).imp (fun hab => Nat.lt_of_le_of_ne hab.1 hab.2)

theorem font_generate_ok (subset : List Nat) (f : Nat → GlyphInput)
    (asc desc : Int) (hne : subset ≠ [])
    (htop : ∀ c ∈ subset, ¬ (f c).bitmap_top < 0) :
    font_generate subset f asc desc
      = Except.ok ⟨ascender_px asc, descender_px desc,
          (font_sorted_subset subset).map (fun c => glyphPayload (f c)),
          compile_ranges (font_sorted_subset subset)⟩ := by
  have htop2 : ∀ c ∈ font_sorted_subset subset, ¬ (f c).bitmap_top < 0 :=
    fun c hc => htop c ((font_sorted_subset_perm subset).mem_iff.mp hc)
  have hne2 : font_sorted_subset subset ≠ [] := by
    intro h0
    have hl := (font_sorted_subset_perm subset).length_eq
    rw [h0, List.length_nil] at hl
    exact hne (List.eq_nil_of_length_eq_zero hl.symm)
  unfold font_generate
  rw [generate_glyphs_ok (font_sorted_subset subset) f htop2]
  rcases hs : font_sorted_subset subset with _ | ⟨c0, rest⟩
  · exact absurd hs hne2
  · rfl

/-- Claim C4 (amended): for a duplicate-free requested character list (any
order), `font_generate` emits one glyph per requested character in strictly
ascending code-point order, and the compiled index ranges map the character
at sorted position `i` to glyph-array position `i`; for subset "bda"
(`[98,100,97]`) the sorted order is `[97,98,100]` with lookup positions
0,1,2. The original claim's deduplication does not exist in the source
(`subset.sort()` is not followed by a `dedup`), so for inputs with duplicate
characters the glyph array holds one glyph per occurrence, not per distinct
character. -/
theorem claim_C4 (subset : List Nat) (f : Nat → GlyphInput) (asc desc : Int)
    (hnd : subset.Nodup) (hne : subset ≠ [])
    (_hcodes : ∀ c ∈ subset, c < 1114112)
    (htop : ∀ c ∈ subset, ¬ (f c).bitmap_top < 0) :
    (∃ out, font_generate subset f asc desc = Except.ok out ∧
      out.glyphs = (font_sorted_subset subset).map (fun c => glyphPayload (f c)) ∧
      out.glyphs.length = subset.length ∧
      (font_sorted_subset subset).Perm subset ∧
      List.Chain' (fun a b => a < b) (font_sorted_subset subset) ∧
      out.glyph_ranges = compile_ranges (font_sorted_subset subset) ∧
      (∀ i, (hi : i < (font_sorted_subset subset).length) →
        lookupGlyphIndex out.glyph_ranges
          ((font_sorted_subset subset).get ⟨i, hi⟩) = some i)) ∧
    font_sorted_subset [98, 100, 97] = [97, 98, 100] ∧
    lookupGlyphIndex (compile_ranges [97, 98, 100]) 97 = some 0 ∧
    lookupGlyphIndex (compile_ranges [97, 98, 100]) 98 = some 1 ∧
    lookupGlyphIndex (compile_ranges [97, 98, 100]) 100 = some 2 := by
  refine ⟨?_, by decide, by decide, by decide, by decide⟩
  have hne2 : font_sorted_subset subset ≠ [] := by
    intro h0
    have hl := (font_sorted_subset_perm subset).length_eq
    rw [h0, List.length_nil] at hl
    exact hne (List.eq_nil_of_length_eq_zero hl.symm)
  refine ⟨⟨ascender_px asc, descender_px desc,
      (font_sorted_subset subset).map (fun c => glyphPayload (f c)),
      compile_ranges (font_sorted_subset subset)⟩,
    font_generate_ok subset f asc desc hne htop, rfl, ?_,
    font_sorted_subset_perm subset, font_sorted_subset_chain subset hnd,
    rfl, ?_⟩
  · rw [List.length_map]
    exact (font_sorted_subset_perm subset).length_eq
  · intro i hi
    exact (compile_ranges_lookup (font_sorted_subset subset) hne2
      (font_sorted_subset_chain subset hnd)).1 i hi

/-- Witness for Claim C4 at the spec's "bda" subset `[98, 100, 97]`. -/
theorem claim_C4_witness :
    (∃ out, font_generate [98, 100, 97] (fun _ => ⟨[0], 1, 1, 1, 0, 0, 64⟩) 0 0
        = Except.ok out ∧
      out.glyphs = (font_sorted_subset [98, 100, 97]).map
        (fun c => glyphPayload
          ((fun _ => (⟨[0], 1, 1, 1, 0, 0, 64⟩ : GlyphInput)) c)) ∧
      out.glyphs.length = ([98, 100, 97] : List Nat).length ∧
      (font_sorted_subset [98, 100, 97]).Perm [98, 100, 97] ∧
      List.Chain' (fun a b => a < b) (font_sorted_subset [98, 100, 97]) ∧
      out.glyph_ranges = compile_ranges (font_sorted_subset [98, 100, 97]) ∧
      (∀ i, (hi : i < (font_sorted_subset [98, 100, 97]).length) →
        lookupGlyphIndex out.glyph_ranges
          ((font_sorted_subset [98, 100, 97]).get ⟨i, hi⟩) = some i)) ∧
    font_sorted_subset [98, 100, 97] = [97, 98, 100] ∧
    lookupGlyphIndex (compile_ranges [97, 98, 100]) 97 = some 0 ∧
    lookupGlyphIndex (compile_ranges [97, 98, 100]) 98 = some 1 ∧
    lookupGlyphIndex (compile_ranges [97, 98, 100]) 100 = some 2 :=
  claim_C4 [98, 100, 97] (fun _ => ⟨[0], 1, 1, 1, 0, 0, 64⟩) 0 0
    (by decide) (by decide) (by decide) (by decide)

/-- Counterexample to Claim C4 as stated: the duplicate input `[97, 97]` is
sorted but not deduplicated, so the build emits two glyphs for the single
distinct requested character. -/
theorem claim_C4_counterexample :
    font_sorted_subset [97, 97] = [97, 97] ∧
    (List.dedup [97, 97]).length = 1 ∧
    (font_generate [97, 97] (fun _ => ⟨[0], 1, 1, 1, 0, 0, 64⟩) 0 0).map
        (fun out => out.glyphs.length) = Except.ok 2 ∧
    (2 : Nat) ≠ (List.dedup [97, 97]).length := by
  refine ⟨by decide, by decide, ?_, by decide⟩
  rfl

/-- Claim C6 (code bug, descender half): the ascender is indeed rounded up —
`ascender_px n = ceil(n / 64)` on the sample points — but the descender is
not rounded away from zero: the source computes `(n - 63) / 64` (truncating)
for a raw descender `-n`, so `-1` maps to 0 px (the claim says 1), `-64`
maps to 0 px (the claim says 1) and `-640` maps to 9 px (the claim says 10).
-/
theorem claim_C6 :
    ascender_px 1 = 1 ∧ ascender_px 64 = 1 ∧ ascender_px 65 = 2 ∧
    descender_px (-1) = 0 ∧ descender_px (-1) ≠ 1 ∧
    descender_px (-64) = 0 ∧ descender_px (-640) = 9 := by decide

/-- Claim C5 (code bug): `avg_color` adds the channels in `u8`, so for the
claim's own boundary example (`avg_rgb = 128`, alpha 255, i.e. channels
128/128/128) the sum 384 wraps to 128, `avg_color` is 42, the level is 213
and the bit is NOT set, while the claim's formula gives level 127 and a set
bit. (In a debug build the addition panics instead.) For channels
127/127/127 the wrapped average is 41, level 214, bit not set — agreeing
with the claim's verdict there only by accident. -/
theorem claim_C5 :
    avg_color ⟨128, 128, 128, 255⟩ = 42 ∧
    pixel_level ⟨128, 128, 128, 255⟩ = 213 ∧
    pixel_dark ⟨128, 128, 128, 255⟩ = false ∧
    avg_rgb_claim ⟨128, 128, 128, 255⟩ = 128 ∧
    level_claim ⟨128, 128, 128, 255⟩ = 127 ∧
    pixel_level ⟨128, 128, 128, 255⟩ ≠ level_claim ⟨128, 128, 128, 255⟩ ∧
    avg_color ⟨127, 127, 127, 255⟩ = 41 ∧
    pixel_dark ⟨127, 127, 127, 255⟩ = false := by decide

theorem and_seven_eq_mod (x : Nat) : x &&& 7 = x % 8 := by
  have h := Nat.and_pow_two_sub_one_eq_mod x 3
  norm_num at h
  exact h

theorem image_set_pixel_length (pixels : List RGBA) (width y : Nat)
    (d : List Nat) (x : Nat) :
    (image_set_pixel pixels width y d x).length = d.length := by
  simp only [image_set_pixel]
  split
  · rw [List.length_set]
  · rfl

/-- One pixel store ORs exactly one bit — byte `y * stride + x / 8`, bit
`x % 8` — into the buffer, when the pixel is dark, and leaves every other bit
unchanged. -/
theorem image_set_pixel_testBit (pixels : List RGBA) (width y x : Nat)
    (d : List Nat) (j k : Nat)
    (hidx : y * image_stride width + x / 8 < d.length) :
    ((image_set_pixel pixels width y d x).getD j 0).testBit k
      = (((d.getD j 0).testBit k) ||
          (decide (y * image_stride width + x / 8 = j) &&
            decide (x % 8 = k) &&
            pixel_dark (pixels.getD (y * width + x) ⟨0, 0, 0, 0⟩))) := by
  simp only [image_set_pixel]
  by_cases hp : pixel_level (pixels.getD (y * width + x) ⟨0, 0, 0, 0⟩) < 128
  · rw [if_pos hp]
    have hdark : pixel_dark (pixels.getD (y * width + x) ⟨0, 0, 0, 0⟩)
        = true := by
      unfold pixel_dark
      exact decide_eq_true hp
    rw [hdark, Bool.and_true]
    by_cases hj : y * image_stride width + x / 8 = j
    · subst hj
      rw [getD_set_eq _ _ _ _ hidx, Nat.testBit_or, Nat.one_shiftLeft,
        and_seven_eq_mod, Nat.testBit_two_pow]
      simp
    · rw [getD_set_ne _ _ _ _ _ hj, decide_eq_false hj, Bool.false_and,
        Bool.or_false]
  · rw [if_neg hp]
    have hdark : pixel_dark (pixels.getD (y * width + x) ⟨0, 0, 0, 0⟩)
        = false := by
      unfold pixel_dark
      exact decide_eq_false hp
    rw [hdark, Bool.and_false, Bool.or_false]

/-- Folding pixel stores over any pixel list ORs together exactly the
matching dark-pixel bits. -/
theorem image_fold_testBit (pixels : List RGBA) (width : Nat)
    (L : List (Nat × Nat)) :
    ∀ d j k, (∀ p ∈ L, p.1 * image_stride width + p.2 / 8 < d.length) →
      (((L.foldl (fun dd q => image_set_pixel pixels width q.1 dd q.2)
          d).getD j 0).testBit k
        = (((d.getD j 0).testBit k) ||
            L.any (fun q =>
              decide (q.1 * image_stride width + q.2 / 8 = j) &&
                decide (q.2 % 8 = k) &&
                pixel_dark (pixels.getD (q.1 * width + q.2) ⟨0, 0, 0, 0⟩)))) := by
  induction L with
  | nil =>
    intro d j k _
    simp
  | cons q L ih =>
    intro d j k hb
    rw [List.foldl_cons]
    have hq := hb q (List.mem_cons_self ..)
    have hrest : ∀ p ∈ L,
        p.1 * image_stride width + p.2 / 8
          < (image_set_pixel pixels width q.1 d q.2).length := by
      intro p hp
      rw [image_set_pixel_length]
      exact hb p (List.mem_cons_of_mem q hp)
    rw [ih (image_set_pixel pixels width q.1 d q.2) j k hrest,
      image_set_pixel_testBit pixels width q.1 q.2 d j k hq,
      List.any_cons, Bool.or_assoc]

theorem foldl_flatMap_eq (g : Nat → List (Nat × Nat))
    (f : List Nat → (Nat × Nat) → List Nat) (L : List Nat) :
    ∀ d, ((L.flatMap g).foldl f d) = L.foldl (fun dd y => (g y).foldl f dd) d := by
  induction L with
  | nil => intro d; rfl
  | cons a L ih =>
    intro d
    rw [List.flatMap_cons, List.foldl_append, List.foldl_cons, ih]

theorem image_load_data_eq_pairs_fold (pixels : List RGBA)
    (width height : Nat) :
    image_load_data pixels width height
      = (imagePairs width height).foldl
          (fun dd q => image_set_pixel pixels width q.1 dd q.2)
          (List.replicate (image_stride width * height) 0) := by
  unfold image_load_data imagePairs
  rw [foldl_flatMap_eq]
  congr 1
  funext dd y
  rw [List.foldl_map]

theorem mem_imagePairs (width height y x : Nat) (hy : y < height)
    (hx : x < width) : (y, x) ∈ imagePairs width height := by
  unfold imagePairs
  rw [List.mem_flatMap]
  exact ⟨y, List.mem_range.mpr hy, List.mem_map.mpr ⟨x, List.mem_range.mpr hx, rfl⟩⟩

theorem imagePairs_mem_bounds (width height : Nat) (q : Nat × Nat)
    (hq : q ∈ imagePairs width height) : q.1 < height ∧ q.2 < width := by
  unfold imagePairs at hq
  rw [List.mem_flatMap] at hq
  obtain ⟨y, hy, hmap⟩ := hq
  rw [List.mem_map] at hmap
  obtain ⟨x, hx, rfl⟩ := hmap
  exact ⟨List.mem_range.mp hy, List.mem_range.mp hx⟩

theorem div8_lt_stride (x width : Nat) (hx : x < width) :
    x / 8 < image_stride width := by
  unfold image_stride
  have h1 : x / 8 ≤ (width - 1) / 8 := Nat.div_le_div_right (by omega)
  have h2 : (width + 7) / 8 = (width - 1) / 8 + 1 := by
    have h3 : width + 7 = (width - 1) + 8 := by omega
    rw [h3, Nat.add_div_right _ (by omega)]
  omega

theorem pixel_index_lt (width height y x : Nat) (hy : y < height)
    (hx : x < width) :
    y * image_stride width + x / 8 < image_stride width * height := by
  have h1 := div8_lt_stride x width hx
  calc y * image_stride width + x / 8
      < y * image_stride width + image_stride width :=
        Nat.add_lt_add_left h1 _
    _ = (y + 1) * image_stride width := (Nat.succ_mul y _).symm
    _ ≤ height * image_stride width := Nat.mul_le_mul_right _ hy
    _ = image_stride width * height := Nat.mul_comm _ _

theorem pixel_pos_inj (width y x y2 x2 : Nat) (hx : x < width)
    (hx2 : x2 < width)
    (h1 : y2 * image_stride width + x2 / 8 = y * image_stride width + x / 8)
    (h2 : x2 % 8 = x % 8) : y2 = y ∧ x2 = x := by
  have ha := div8_lt_stride x width hx
  have hb := div8_lt_stride x2 width hx2
  have hkey : ∀ a b u v : Nat, a < b → u < image_stride width →
      a * image_stride width + u ≠ b * image_stride width + v := by
    intro a b u v hab hu
    apply Nat.ne_of_lt
    calc a * image_stride width + u
        < a * image_stride width + image_stride width :=
          Nat.add_lt_add_left hu _
      _ = (a + 1) * image_stride width := (Nat.succ_mul a _).symm
      _ ≤ b * image_stride width := Nat.mul_le_mul_right _ hab
      _ ≤ b * image_stride width + v := Nat.le_add_right _ _
  have hy : y2 = y := by
    rcases Nat.lt_trichotomy y2 y with h | h | h
    · exact absurd h1 (hkey y2 y (x2 / 8) (x / 8) h hb)
    · exact h
    · exact absurd h1.symm (hkey y y2 (x / 8) (x2 / 8) h ha)
  subst hy
  have hdiv : x2 / 8 = x / 8 := by omega
  have d1 := Nat.div_add_mod x 8
  have d2 := Nat.div_add_mod x2 8
  omega

/-- Claim C10: in the 1-bpp buffer produced by `Image::load`, the bit for
pixel `x` of row `y` is stored in byte `y * stride + x / 8` at bit position
`x mod 8` counted from the least significant bit (LSB-first), which is the
opposite of the MSB-first order used by the glyph row reader `getBit`, which
reads bit position `7 - i mod 8`; the two positions never coincide. -/
theorem claim_C10 :
    (∀ pixels width height y x, y < height → x < width →
      ((image_load_data pixels width height).getD
          (y * image_stride width + x / 8) 0).testBit (x % 8)
        = pixel_dark (pixels.getD (y * width + x) ⟨0, 0, 0, 0⟩)) ∧
    (∀ row i, getBit row i
        = if (row.getD (i / 8) 0).testBit (7 - i % 8) then 1 else 0) ∧
    (∀ x : Nat, ¬ (x % 8 = 7 - x % 8)) := by
  refine ⟨?_, ?_, ?_⟩
  · intro pixels width height y x hy hx
    rw [image_load_data_eq_pairs_fold]
    rw [image_fold_testBit pixels width (imagePairs width height) _ _ _
      (by
        intro p hp
        obtain ⟨hpy, hpx⟩ := imagePairs_mem_bounds width height p hp
        rw [List.length_replicate]
        exact pixel_index_lt width height p.1 p.2 hpy hpx)]
    rw [getD_replicate_zero, Nat.zero_testBit, Bool.false_or]
    cases hD : pixel_dark (pixels.getD (y * width + x) ⟨0, 0, 0, 0⟩) with
    | true =>
      rw [List.any_eq_true]
      refine ⟨(y, x), mem_imagePairs width height y x hy hx, ?_⟩
      rw [hD]
      simp
    | false =>
      rw [List.any_eq_false]
      intro q hq
      obtain ⟨hqy, hqx⟩ := imagePairs_mem_bounds width height q hq
      by_cases hcond : q.1 * image_stride width + q.2 / 8
          = y * image_stride width + x / 8 ∧ q.2 % 8 = x % 8
      · obtain ⟨hyy, hxx⟩ :=
          pixel_pos_inj width y x q.1 q.2 hx hqx hcond.1 hcond.2
        rw [hyy, hxx, hD]
        simp
      · rcases not_and_or.mp hcond with h | h
        · simp [h]
        · simp [h]
  · intro row i
    unfold getBit
    rw [Nat.and_one_is_mod]
    cases htb : (row.getD (i / 8) 0).testBit (7 - i % 8) with
    | false =>
      rw [if_neg Bool.false_ne_true]
      rw [Nat.testBit_to_div_mod, decide_eq_false_iff_not] at htb
      rw [Nat.shiftRight_eq_div_pow]
      generalize row.getD (i / 8) 0 / 2 ^ (7 - i % 8) = e at htb ⊢
      omega
    | true =>
      rw [if_pos rfl]
      rw [Nat.testBit_to_div_mod, decide_eq_true_eq] at htb
      rw [Nat.shiftRight_eq_div_pow]
      generalize row.getD (i / 8) 0 / 2 ^ (7 - i % 8) = e at htb ⊢
      omega
  · intro x
    omega

/-- Witness for Claim C10 on a 1x1 image whose single transparent pixel is
dark (level 0): its bit lands in byte 0, bit 0. -/
theorem claim_C10_witness :
    ((image_load_data [⟨0, 0, 0, 0⟩] 1 1).getD
        (0 * image_stride 1 + 0 / 8) 0).testBit (0 % 8)
      = pixel_dark (([⟨0, 0, 0, 0⟩] : List RGBA).getD (0 * 1 + 0)
          ⟨0, 0, 0, 0⟩) :=
  claim_C10.1 [⟨0, 0, 0, 0⟩] 1 1 0 0 (by decide) (by decide)
